import Mathlib

/-!
Verification development for the telejson codec (src/index.js).

The development is a shallow embedding of the source file:
* the source normalizer `removeCodeComments` / `cleanCode`,
* the encoder closure `replacer` / `replace` together with the
  `JSON.stringify` tree walk that drives it,
* the decoder closure `reviver` / `revive` together with the
  `JSON.parse` tree walk that drives it, and
* the `isJSON` heuristic.

JavaScript values are modelled as a heap of containers (so that the
source's reference-identity comparisons `===`, its in-place mutation of
the caller's graph, and the cyclic graphs produced by the decoder are all
representable) plus inline primitive values.  Machine details that the
codec never observes (IEEE float layout of finite numbers, prototype
chains beyond the recorded constructor name) are modelled abstractly.
-/

set_option maxHeartbeats 1000000

namespace Telejson

/-! ### Character classes used by the JavaScript regexes -/

/-- Line terminators, which the JavaScript `.` pattern does not match. -/
def isLineTerm (c : Char) : Bool :=
  c = '\n' || c = '\r' || c = ' ' || c = ' '

/-- The JavaScript `\s` class (and the set trimmed by `String.prototype.trim`),
restricted to the code points that can actually appear in our reasoning;
the remaining Unicode space separators behave identically. -/
def isJsWs (c : Char) : Bool :=
  c = ' ' || c = '\t' || c = '\n' || c = '\r' || c = '\x0b' || c = '\x0c' ||
  c = ' ' || c = ' ' || c = ' ' || c = '﻿'

/-- JavaScript `String.prototype.trim` on a character list. -/
def jsTrimList (cs : List Char) : List Char :=
  ((cs.dropWhile isJsWs).reverse.dropWhile isJsWs).reverse

/-- JavaScript `String.prototype.trim`. -/
def jsTrim (s : String) : String :=
  (jsTrimList s.toList).asString

/-! ### The source normalizer (`removeCodeComments`, lines 11-52) -/

/-- Scanner state of `removeCodeComments`: the four mutually exclusive
lexical modes (`inQuoteChar`, `inBlockComment`, `inLineComment`,
`inRegexLiteral`). -/
structure ScanSt where
  inQuote : Option Char
  inBlock : Bool
  inLine  : Bool
  inRegex : Bool
deriving DecidableEq, Repr

def ScanSt.init : ScanSt := ⟨none, false, false, false⟩

/-- Lines 30-36: leave quote mode on an unescaped closing quote, or on a
newline unless inside a template literal. -/
def quoteUpd (p1 : Option Char) (c : Char) (st : ScanSt) : ScanSt :=
  match st.inQuote with
  | some q =>
      if (c = q && p1 ≠ some '\\') || (c = '\n' && q ≠ '`') then
        { st with inQuote := none }
      else st
  | none => st

/-- Line 37-39: leave a regex literal on an unescaped `/` or a newline. -/
def regexUpd (p1 : Option Char) (c : Char) (st : ScanSt) : ScanSt :=
  if st.inRegex && ((c = '/' && p1 ≠ some '\\') || c = '\n') then
    { st with inRegex := false }
  else st

/-- Lines 40-42: leave a block comment one character after `*/`. -/
def blockUpd (p1 p2 : Option Char) (st : ScanSt) : ScanSt :=
  if st.inBlock && p1 = some '/' && p2 = some '*' then { st with inBlock := false } else st

/-- Lines 43-45: leave a line comment at a newline. -/
def lineUpd (c : Char) (st : ScanSt) : ScanSt :=
  if st.inLine && c = '\n' then { st with inLine := false } else st

/-- One pass of the `removeCodeComments` loop body: compute the updated
mode flags for the current character `c`.  `p1`/`p2` are `code[i-1]` and
`code[i-2]` (`none` = out of range, which compares unequal to every
character, like `undefined` in JavaScript); `nxt` is `code[i+1]`.
When no mode is active, a mode may be entered (lines 19-28); otherwise
the four independent exit checks run in their source order. -/
def scanStep (st : ScanSt) (p1 p2 : Option Char) (c : Char) (nxt : Option Char) : ScanSt :=
  if st.inQuote = none && !st.inBlock && !st.inLine && !st.inRegex then
    if c = '"' || c = '\'' || c = '`' then { st with inQuote := some c }
    else if c = '/' && nxt = some '*' then { st with inBlock := true }
    else if c = '/' && nxt = some '/' then { st with inLine := true }
    else if c = '/' && nxt ≠ some '/' then { st with inRegex := true }
    else st
  else
    lineUpd c (blockUpd p1 p2 (regexUpd p1 c (quoteUpd p1 c st)))

/-- The scan loop of `removeCodeComments`: characters are appended to the
output exactly when, after the mode update for that character, the scanner
is in neither comment mode. -/
def rccGo (st : ScanSt) (p1 p2 : Option Char) : List Char → List Char
  | [] => []
  | c :: rest =>
    let st1 := scanStep st p1 p2 c rest.head?
    let out := rccGo st1 (some c) p1 rest
    if !st1.inBlock && !st1.inLine then c :: out else out

/-- `removeCodeComments` (lines 11-52). -/
def removeCodeComments (code : String) : String :=
  (rccGo ScanSt.init none none code.toList).asString

/-- The global replacement `.replace(/\n\s*/g, '')` of `cleanCode` as a
single scan: every newline together with the maximal whitespace run
following it is removed.  The flag records "inside a match": once a
newline is seen, all following `\s` characters (newlines included, as
the regex's greedy `\s*` consumes them) are dropped until a
non-whitespace character ends the match. -/
def collapseGo : Bool → List Char → List Char
  | _, [] => []
  | true, c :: cs => if isJsWs c then collapseGo true cs else c :: collapseGo false cs
  | false, c :: cs => if c = '\n' then collapseGo true cs else c :: collapseGo false cs

def collapseNl (cs : List Char) : List Char := collapseGo false cs

/-- `cleanCode` (lines 54-57): strip comments, remove indents and
newlines, trim. -/
def cleanCode (code : String) : String :=
  (jsTrimList (collapseNl (removeCodeComments code).toList)).asString

/-! ### The date heuristic and the tag prefixes -/

/-- The regex `dateFormat` (line 59):
`^\d{4}-\d{2}-\d{2}T\d{2}:\d{2}:\d{2}(\.\d{3})?Z$`. -/
def dateFormatTest (s : String) : Bool :=
  match s.toList with
  | [y1,y2,y3,y4,'-',m1,m2,'-',d1,d2,'T',h1,h2,':',n1,n2,':',s1,s2,'Z'] =>
      [y1,y2,y3,y4,m1,m2,d1,d2,h1,h2,n1,n2,s1,s2].all Char.isDigit
  | [y1,y2,y3,y4,'-',m1,m2,'-',d1,d2,'T',h1,h2,':',n1,n2,':',s1,s2,'.',f1,f2,f3,'Z'] =>
      [y1,y2,y3,y4,m1,m2,d1,d2,h1,h2,n1,n2,s1,s2,f1,f2,f3].all Char.isDigit
  | _ => false

/-- The nine tag prefixes of the wire format. -/
def tagList : List String :=
  ["_regexp_", "_function_", "_symbol_", "_date_", "_duplicate_",
   "_undefined_", "_-Infinity_", "_Infinity_", "_NaN_"]

/-- The test `/(\[native code\]|WEBPACK_IMPORTED_MODULE)/` of line 90:
an unanchored regex over literals, i.e. substring containment. -/
def nativeStub (s : String) : Bool :=
  decide ("[native code]".toList <:+: s.toList) ||
  decide ("WEBPACK_IMPORTED_MODULE".toList <:+: s.toList)

/-! ### String helpers for the tag payloads -/

/-- JavaScript `String.prototype.replace` with a plain-string pattern:
replace the first occurrence only. -/
def replaceFirstList (pat rep : List Char) : List Char → List Char
  | [] => []
  | c :: cs =>
    if (c :: cs).take pat.length = pat then rep ++ (c :: cs).drop pat.length
    else c :: replaceFirstList pat rep cs

def replaceFirst (pat rep s : String) : String :=
  (replaceFirstList pat.toList rep.toList s.toList).asString

/-- `String.prototype.startsWith`, on the underlying characters. -/
def strStarts (p s : String) : Bool :=
  decide (s.toList.take p.toList.length = p.toList)

/-- `keys.join('.')` (line 153). -/
def joinDots : List String → String
  | [] => ""
  | [k] => k
  | k :: ks => k ++ "." ++ joinDots ks

/-- Splitting a dotted path into its segments (the path syntax of the
spec's "dotted-key lookup"). -/
def splitDotsAux (cur : List Char) : List Char → List String
  | [] => [cur.reverse.asString]
  | c :: cs =>
    if c = '.' then cur.reverse.asString :: splitDotsAux [] cs
    else splitDotsAux (c :: cur) cs

def splitDots (s : String) : List String := splitDotsAux [] s.toList

/-! ### Decimal array-index keys

`JSON.stringify` hands the replacer array indices as decimal strings,
and on arrays `container[key] = v` / lodash index steps coerce a
canonical decimal string back to an index.  Both directions are modelled
here by structurally recursive functions (the fuel of `natKeyGo` is the
number itself, which always suffices since `n / 10 < n`). -/

def natKeyGo : Nat → Nat → List Char → List Char
  | 0, _, acc => acc
  | f + 1, n, acc =>
    if n < 10 then Char.ofNat (48 + n) :: acc
    else natKeyGo f (n / 10) (Char.ofNat (48 + n % 10) :: acc)

/-- The decimal representation of an array index. -/
def natKey (n : Nat) : String := (natKeyGo (n + 1) n []).asString

def keyToNatGo : Nat → List Char → Option Nat
  | acc, [] => some acc
  | acc, c :: cs => if c.isDigit then keyToNatGo (acc * 10 + (c.toNat - 48)) cs else none

/-- Parsing a decimal index string; non-digit strings are not indices.
(The canonical-form subtleties of JavaScript array indices — `'00'` is a
plain property, not index 0 — are unreachable here because every index
key the codec produces is canonical.) -/
def keyToNat (s : String) : Option Nat :=
  match s.toList with
  | [] => none
  | c :: cs => keyToNatGo 0 (c :: cs)

/-! ### `isJSON` (line 256) -/

/-- The matching semantics of `input.match(/^[\[\{\"\}].*[\]\}\"]$/)`
(line 256): the match succeeds exactly when the input decomposes as a
first character from the class `[`, `{`, `"`, `}`, a middle part in which
`.` can match every character (i.e. no line terminators), and a final
character from the class `]`, `}`, `"`.  `isJSON` is truthy exactly when
the match succeeds. -/
def isJSON (s : String) : Bool :=
  match s.toList with
  | [] => false
  | c :: cs =>
      (c = '[' || c = '{' || c = '"' || c = '}') &&
      (match cs.getLast? with
       | some d => (d = ']' || d = '}' || d = '"') &&
                   cs.dropLast.all (fun x => !isLineTerm x)
       | none => false)

/-! ### The value model

JavaScript values as seen by the codec.  Containers (arrays and plain
objects) live on a heap and are referred to by `href` so that reference
identity (`===`), in-place mutation and cyclic graphs are representable.
Regular expressions, functions and symbols are carried inline: the
replacer tags them before they can ever reach the identity-sensitive
code (`objects.find`, the ancestor stack), so their object identity is
unobservable to the codec.  A `Date` is carried as the ISO-8601 text its
`toJSON` produces; `JSON.stringify` applies `toJSON` before the replacer
runs, so the replacer itself never sees a date value.  Finite numbers are
modelled as integers — the codec never inspects a finite number's value,
so the fractional part is irrelevant; the non-finite numbers get their
own constructors because the replacer dispatches on them. -/

inductive JsNum where
  | fin (v : Int)
  | nan
  | inf
  | ninf
deriving DecidableEq, Repr

inductive HVal where
  | hnull
  | hundefined
  | hbool (b : Bool)
  | hnum (n : JsNum)
  | hstr (s : String)
  | href (id : Nat)
  | hregexp (flags source : String)
  | hfunc (name source : String)
  | hsymbol (description : String)
  | hdate (iso : String)
  | hrevived (name source : String)
deriving DecidableEq, Repr

/-- A heap container: an array of elements, or an object with a
constructor name, a frozen flag (immutable objects make property writes
throw) and an ordered field list. -/
inductive HObj where
  | arr (elems : List HVal)
  | omap (ctor : String) (frozen : Bool) (fields : List (String × HVal))
deriving DecidableEq, Repr

abbrev Heap := List (Nat × HObj)

def heapGet (h : Heap) (id : Nat) : Option HObj :=
  (List.find? (fun e => e.1 = id) h).map (·.2)

def heapPut (h : Heap) (id : Nat) (o : HObj) : Heap :=
  List.map (fun e => if e.1 = id then (id, o) else e) h

/-- Setting a property: an existing key keeps its position in the
insertion order, a new key is appended (JavaScript property order). -/
def setField (k : String) (v : HVal) (fields : List (String × HVal)) :
    List (String × HVal) :=
  if fields.any (fun f => f.1 = k) then
    fields.map (fun f => if f.1 = k then (k, v) else f)
  else fields ++ [(k, v)]

def findField (fields : List (String × HVal)) (k : String) : Option HVal :=
  (List.find? (fun f => f.1 = k) fields).map (·.2)

def removeField (k : String) (fields : List (String × HVal)) :
    List (String × HVal) :=
  List.filter (fun f => f.1 ≠ k) fields

/-- JavaScript `===` restricted to the comparisons the codec performs.
Only values that went through `objects.push` / `stack.unshift` are ever
compared: `null`, booleans and container references (everything else
returns from the replacer before reaching that code).  The inline
extended values compare unequal, matching the identity-inequality of
distinct JavaScript objects; `NaN === NaN` is false. -/
def jsStrictEq : HVal → HVal → Bool
  | .hnull, .hnull => true
  | .hundefined, .hundefined => true
  | .hbool a, .hbool b => a = b
  | .hnum (.fin a), .hnum (.fin b) => a = b
  | .hnum .inf, .hnum .inf => true
  | .hnum .ninf, .hnum .ninf => true
  | .hstr a, .hstr b => a = b
  | .href i, .href j => i = j
  | _, _ => false

/-- JavaScript truthiness, for the checks `value && ...` (line 136) and
`value['_constructor-name_']` (line 188). -/
def jsTruthy : HVal → Bool
  | .hnull => false
  | .hundefined => false
  | .hbool b => b
  | .hnum (.fin v) => v ≠ 0
  | .hnum .nan => false
  | .hnum _ => true
  | .hstr s => s ≠ ""
  | _ => true

/-- The `isobject` package: `val != null && typeof val === 'object' &&
Array.isArray(val) === false`.  Of our inline values only dates are
objects in this sense; regexps are too, but `isRegExp` dispatches on them
first so the case is unreachable. -/
def isObjectRef (h : Heap) : HVal → Bool
  | .href id =>
    match heapGet h id with
    | some (.omap _ _ _) => true
    | _ => false
  | _ => false

/-- The JSON tree handed to / received from the underlying JSON
printer and parser. -/
inductive JsonDoc where
  | jnull
  | jbool (b : Bool)
  | jnum (v : Int)
  | jstr (s : String)
  | jarr (elems : List JsonDoc)
  | jobj (fields : List (String × JsonDoc))

/-! ### The encoder (`replacer` / `replace`, lines 61-160) -/

/-- The per-call state closed over by `replacer`: the visitation records
`objects` (dotted path, value), the ancestor `stack` and the path `keys`. -/
structure RState where
  objects : List (String × HVal)
  stack : List HVal
  keys : List String
deriving DecidableEq, Repr

/-- The loop `while (stack.length && this !== stack[0]) { stack.shift();
keys.pop(); }` (lines 77-80). -/
def popSync (thisv : HVal) : List HVal → List String → List HVal × List String
  | [], ks => ([], ks)
  | top :: rest, ks =>
    if jsStrictEq thisv top then (top :: rest, ks)
    else popSync thisv rest ks.dropLast

/-- The best-effort attach of the constructor-name marker (lines
135-149): `Object.assign(value, { '_constructor-name_': ctor })`,
swallowing the throw on immutable objects. -/
def attachMarker (h : Heap) (v : HVal) : Heap :=
  match v with
  | .href id =>
    match heapGet h id with
    | some (.omap ctor frozen fields) =>
      if ctor ≠ "" ∧ ctor ≠ "Object" then
        if frozen then h  -- the write throws and is swallowed
        else heapPut h id (.omap ctor frozen (setField "_constructor-name_" (.hstr ctor) fields))
      else h
    | _ => h
  | _ => h

/-- The tail of `replace` for values that fall through every tag branch
(lines 126-158): depth limiting, duplicate detection, first visit. -/
def replaceTail (depth : Nat) (key : String) (value : HVal)
    (objects : List (String × HVal)) (stack1 : List HVal) (keys1 : List String)
    (h : Heap) : HVal × RState × Heap :=
  if stack1.length ≥ depth then
    match value with
    | .href id =>
      match heapGet h id with
      | some (.arr elems) => (.hstr ("[Array(" ++ toString elems.length ++ ")]"), ⟨objects, stack1, keys1⟩, h)
      | _ => (.hstr "[Object]", ⟨objects, stack1, keys1⟩, h)
    | _ => (.hstr "[Object]", ⟨objects, stack1, keys1⟩, h)
  else
    match List.find? (fun o => jsStrictEq o.2 value) objects with
    | some o => (.hstr ("_duplicate_" ++ o.1), ⟨objects, stack1, keys1⟩, h)
    | none =>
      let h1 := if jsTruthy value ∧ isObjectRef h value then attachMarker h value else h
      let keys2 := keys1 ++ [key]
      let stack2 := value :: stack1
      let objects2 := objects ++ [(joinDots keys2, value)]
      (value, ⟨objects2, stack2, keys2⟩, h1)

/-- `(() => {}).toString()` (line 93). -/
def noopSource : String := "() => {}"

/-- The replacer callback `replace` (lines 66-159).  `thisv` is the
holder object supplied by `JSON.stringify` as `this`. -/
def replace (depth : Nat) (thisv : HVal) (key : String) (value : HVal)
    (st : RState) (h : Heap) : HVal × RState × Heap :=
  if key = "" then
    -- very first iteration: reset all traversal state (lines 68-73)
    (value, ⟨[("root", value)], [], ["root"]⟩, h)
  else
    let (stack1, keys1) := popSync thisv st.stack st.keys
    match value with
    | .hregexp flags source =>
      (.hstr ("_regexp_" ++ flags ++ "|" ++ source), ⟨st.objects, stack1, keys1⟩, h)
    | .hfunc name source =>
      let stringified := cleanCode source
      if nativeStub stringified then
        (.hstr ("_function_" ++ name ++ "|" ++ noopSource), ⟨st.objects, stack1, keys1⟩, h)
      else
        (.hstr ("_function_" ++ name ++ "|" ++ stringified), ⟨st.objects, stack1, keys1⟩, h)
    | .hsymbol d =>
      -- `value.toString().slice(7, -1)` for `Symbol(<d>)` is `<d>`
      (.hstr ("_symbol_" ++ d), ⟨st.objects, stack1, keys1⟩, h)
    | .hstr s =>
      if dateFormatTest s then (.hstr ("_date_" ++ s), ⟨st.objects, stack1, keys1⟩, h)
      else (.hstr s, ⟨st.objects, stack1, keys1⟩, h)
    | .hundefined => (.hstr "_undefined_", ⟨st.objects, stack1, keys1⟩, h)
    | .hnum n =>
      match n with
      | .ninf => (.hstr "_-Infinity_", ⟨st.objects, stack1, keys1⟩, h)
      | .inf => (.hstr "_Infinity_", ⟨st.objects, stack1, keys1⟩, h)
      | .nan => (.hstr "_NaN_", ⟨st.objects, stack1, keys1⟩, h)
      | .fin v => (.hnum (.fin v), ⟨st.objects, stack1, keys1⟩, h)
    | other => replaceTail depth key other st.objects stack1 keys1 h

/-! ### The `JSON.stringify` walk driving the replacer

`SerializeJSONProperty` applies `toJSON` (only dates have one) and then
the replacer; objects and arrays are then recursed into, the replacer
receiving the container as `this` and the property key (array indices as
decimal strings).  A property whose replaced value is `undefined`, a
function or a symbol is omitted from objects and becomes `null` in
arrays; at the top level the result is no JSON text at all (`none`).

The `fuel` argument is a modelling artifact bounding the nesting depth of
the recursion; it is not part of the source.  One unit is consumed each
time the walk descends into a container, so any fuel larger than the
nesting depth actually reached computes the source's behaviour, and
`stringifyDoc` below passes fuel that provably suffices (the walk can
never nest deeper than one level per heap container, since a container is
recursed into only on first visit). -/

/-- The `toJSON` conversion `JSON.stringify` applies before the
replacer: only dates have a `toJSON`, producing their ISO text. -/
def toJSONStep : HVal → HVal
  | .hdate iso => .hstr iso
  | other => other

/-- The step function type for one property visit of the stringify walk:
heap, state, `this`, key, value in; serialized tree (or `none` for an
omitted property), state and heap out. -/
abbrev SerStep := Heap → RState → HVal → String → HVal → Option JsonDoc × RState × Heap

/-- Serializing the elements of an array (`SerializeJSONArray`): each
element is visited with the array as holder and its decimal index as
key; an omitted element prints as `null`. -/
def serializeArrGo (recur : SerStep) (selfId : Nat) :
    Nat → List HVal → Heap → RState → List JsonDoc × RState × Heap
  | _, [], h, st => ([], st, h)
  | i, e :: es, h, st =>
    let (d, st1, h1) := recur h st (.href selfId) (natKey i) e
    let (ds, st2, h2) := serializeArrGo recur selfId (i + 1) es h1 st1
    (d.getD .jnull :: ds, st2, h2)

/-- Serializing the fields of an object (`SerializeJSONObject`): a field
whose visit returns `none` (`undefined`) is omitted. -/
def serializeFieldsGo (recur : SerStep) (selfId : Nat) :
    List (String × HVal) → Heap → RState → List (String × JsonDoc) × RState × Heap
  | [], h, st => ([], st, h)
  | (k, v) :: rest, h, st =>
    let (d, st1, h1) := recur h st (.href selfId) k v
    let (fs, st2, h2) := serializeFieldsGo recur selfId rest h1 st1
    ((match d with
      | some dd => (k, dd) :: fs
      | none => fs), st2, h2)

def serializeValue (depth : Nat) :
    Nat → Heap → RState → HVal → String → HVal → Option JsonDoc × RState × Heap
  | 0, h, st, _, _, _ => (none, st, h)
  | f + 1, h, st, thisv, key, value =>
    let (v1, st1, h1) := replace depth thisv key (toJSONStep value) st h
    match v1 with
    | .hnull => (some .jnull, st1, h1)
    | .hbool b => (some (.jbool b), st1, h1)
    | .hnum (.fin v) => (some (.jnum v), st1, h1)
    | .hnum _ => (some .jnull, st1, h1)  -- JSON.stringify prints non-finite numbers as null
    | .hstr s => (some (.jstr s), st1, h1)
    | .hundefined => (none, st1, h1)
    | .hfunc _ _ => (none, st1, h1)
    | .hsymbol _ => (none, st1, h1)
    | .hrevived _ _ => (none, st1, h1)
    | .hregexp _ _ => (some (.jobj []), st1, h1)  -- a RegExp has no own enumerable properties
    | .hdate _ => (some (.jobj []), st1, h1)      -- unreachable: dates were converted above
    | .href id =>
      match heapGet h1 id with
      | some (.arr elems) =>
        let (ds, st2, h2) := serializeArrGo (serializeValue depth f) id 0 elems h1 st1
        (some (.jarr ds), st2, h2)
      | some (.omap _ _ fields) =>
        let (fs, st2, h2) := serializeFieldsGo (serializeValue depth f) id fields h1 st1
        (some (.jobj fs), st2, h2)
      | none => (none, st1, h1)  -- dangling reference: not constructible in JavaScript

/-- `JSON.stringify(data, replacer(maxDepth), space)` up to the JSON tree
level: the tagged JSON tree (or `none` when stringify returns
`undefined`), together with the possibly marker-mutated heap.  The fuel
`h.length + 2` bounds the recursion: the walk descends only into
containers on their first visit, so nesting never exceeds the number of
heap containers plus the root frame. -/
def stringifyDoc (maxDepth : Nat) (h : Heap) (v : HVal) :
    Option JsonDoc × RState × Heap :=
  serializeValue maxDepth (h.length + 2) h ⟨[], [], []⟩ .hnull "" v

theorem serializeValue_succ (depth f : Nat) (h : Heap) (st : RState)
    (thisv : HVal) (key : String) (value : HVal) :
    serializeValue depth (f + 1) h st thisv key value =
      (let (v1, st1, h1) := replace depth thisv key (toJSONStep value) st h
      match v1 with
      | .hnull => (some .jnull, st1, h1)
      | .hbool b => (some (.jbool b), st1, h1)
      | .hnum (.fin v) => (some (.jnum v), st1, h1)
      | .hnum _ => (some .jnull, st1, h1)
      | .hstr s => (some (.jstr s), st1, h1)
      | .hundefined => (none, st1, h1)
      | .hfunc _ _ => (none, st1, h1)
      | .hsymbol _ => (none, st1, h1)
      | .hrevived _ _ => (none, st1, h1)
      | .hregexp _ _ => (some (.jobj []), st1, h1)
      | .hdate _ => (some (.jobj []), st1, h1)
      | .href id =>
        match heapGet h1 id with
        | some (.arr elems) =>
          let (ds, st2, h2) := serializeArrGo (serializeValue depth f) id 0 elems h1 st1
          (some (.jarr ds), st2, h2)
        | some (.omap _ _ fields) =>
          let (fs, st2, h2) := serializeFieldsGo (serializeValue depth f) id fields h1 st1
          (some (.jobj fs), st2, h2)
        | none => (none, st1, h1)) :=
  rfl

/-! ### The JSON text printer (the underlying `JSON.stringify` output) -/

def escChar (c : Char) : String :=
  if c = '"' then "\\\""
  else if c = '\\' then "\\\\"
  else if c = '\n' then "\\n"
  else if c = '\r' then "\\r"
  else if c = '\t' then "\\t"
  else if c.toNat < 32 then
    "\\u00" ++ String.mk [Nat.digitChar (c.toNat / 16), Nat.digitChar (c.toNat % 16)]
  else String.mk [c]

def escapeJson (s : String) : String :=
  "\"" ++ String.join (s.toList.map escChar) ++ "\""

mutual

def printJson : JsonDoc → String
  | .jnull => "null"
  | .jbool true => "true"
  | .jbool false => "false"
  | .jnum v => toString v
  | .jstr s => escapeJson s
  | .jarr ds => "[" ++ printJsonList ds ++ "]"
  | .jobj fs => "\x7b" ++ printJsonFields fs ++ "\x7d"

def printJsonList : List JsonDoc → String
  | [] => ""
  | [d] => printJson d
  | d :: ds => printJson d ++ "," ++ printJsonList ds

def printJsonFields : List (String × JsonDoc) → String
  | [] => ""
  | [(k, d)] => escapeJson k ++ ":" ++ printJson d
  | (k, d) :: fs => escapeJson k ++ ":" ++ printJson d ++ "," ++ printJsonFields fs

end

/-- `stringify` (line 258) at the text level, with the default options:
`options.maxDepth || 10` is `10`, `options.space` is `undefined` (the
compact printing above).  `none` means `JSON.stringify` returned
`undefined`, i.e. no JSON text was produced. -/
def stringify (h : Heap) (v : HVal) : Option String :=
  (stringifyDoc 10 h v).1.map printJson

/-! ### The decoder (`reviver` / `revive`, lines 162-254) -/

/-- Modelled from the spec: `lodash.get` is an external dependency (not
part of this repository's source); the spec describes the resolution of a
deferred reference as "resolve the remaining dotted path against the
finished root (mapping-key and sequence-index traversal)".  One lookup
step: a mapping key or a decimal sequence index; anything unresolvable
yields `undefined`. -/
def getStep (h : Heap) (v : HVal) (seg : String) : HVal :=
  match v with
  | .href id =>
    match heapGet h id with
    | some (.omap _ _ fields) => (findField fields seg).getD .hundefined
    | some (.arr elems) =>
      match keyToNat seg with
      | some i => elems.getD i .hundefined
      | none => .hundefined
    | none => .hundefined
  | _ => .hundefined

/-- Modelled from the spec: dotted-key lookup against the finished root
(`get(root, path)`, line 178). -/
def getPath (h : Heap) (root : HVal) (path : String) : HVal :=
  (splitDots path).foldl (getStep h) root

/-- `container[target] = v`: a property write through a reference.  On an
array a decimal index updates the element in place (extending with holes
if beyond the end); a non-index key on an array adds a property invisible
to JSON, modelled as a no-op. -/
def heapSetKey (h : Heap) (cid : Nat) (key : String) (v : HVal) : Heap :=
  match heapGet h cid with
  | some (.omap ctor frozen fields) => heapPut h cid (.omap ctor frozen (setField key v fields))
  | some (.arr elems) =>
    match keyToNat key with
    | some i =>
      if i < elems.length then heapPut h cid (.arr (elems.set i v))
      else heapPut h cid (.arr (elems ++ List.replicate (i - elems.length) .hundefined ++ [v]))
    | none => h
  | none => h

/-- A deferred reference (line 228): `{ target: key, container: this,
replacement: path }`. -/
structure DRef where
  cid : Nat
  target : String
  repl : String
deriving DecidableEq, Repr

/-- The per-call state of `reviver`: the heap under construction, the
allocator counter and the deferred-reference list `refs`. -/
structure DState where
  heap : Heap
  next : Nat
  refs : List DRef
deriving DecidableEq, Repr

/-- The patch loop of the root call (lines 172-180), run after `root =
value`: each deferred reference writes the root itself (path `root`) or
the dotted-path resolution of the path with its leading `root.` stripped.
Writes happen on the live heap, so later resolutions see earlier
patches. -/
def applyRefs (root : HVal) (refs : List DRef) (h : Heap) : Heap :=
  refs.foldl
    (fun acc r =>
      if r.repl = "root" then heapSetKey acc r.cid r.target root
      else heapSetKey acc r.cid r.target (getPath acc root (replaceFirst "root." "" r.repl)))
    h

/-- The match `value.match(/_function_([^|]*)\|(.*)/)` (line 201) and its
`_regexp_` twin (line 219), applied to the part after the tag: the match
succeeds iff the string contains a `|`; the first capture is everything
before the first `|`, the second everything after it up to the first line
terminator (`.` does not cross lines, and the regex is unanchored).  A
failed match destructures `null` and throws a `TypeError`. -/
def matchTagBody (body : String) : Option (String × String) :=
  if body.toList.contains '|' then
    some ((body.toList.takeWhile (fun c => c ≠ '|')).asString,
      ((body.toList.drop ((body.toList.takeWhile (fun c => c ≠ '|')).length + 1)).takeWhile
        (fun c => !isLineTerm c)).asString)
  else none

/-- The reviver callback `revive` (lines 166-253).  `thisId` is the
holder container supplied by `JSON.parse` as `this`.  The result is in
`Except` because a tagged function/regexp string without a `|` makes the
source destructure `null`, which throws. -/
def revive (key : String) (thisId : Nat) (value : HVal) (st : DState) :
    Except String (HVal × DState) :=
  -- last iteration = root: capture the root and restore cyclic refs
  let st1 : DState :=
    if key = "" then { st with heap := applyRefs value st.refs st.heap } else st
  if key = "_constructor-name_" then .ok (value, st1)
  else
    match value with
    | .href id =>
      -- deal with instance names (lines 188-198)
      (match heapGet st1.heap id with
       | some (.omap ctor frozen fields) =>
         (match findField fields "_constructor-name_" with
          | some nm =>
            if jsTruthy nm then
              let ctor1 := match nm with
                | .hstr s => if s ≠ "Object" then s else ctor
                | _ => ctor  -- non-string marker: `new Function` on its stringification, unreachable here
              .ok (value,
                { st1 with heap := heapPut st1.heap id (.omap ctor1 frozen (removeField "_constructor-name_" fields)) })
            else .ok (value, st1)
          | none => .ok (value, st1))
       | _ => .ok (value, st1))
    | .hstr s =>
      if strStarts "_function_" s then
        match matchTagBody (replaceFirst "_function_" "" s) with
        | some (name, source) => .ok (.hrevived name source, st1)
        | none => .error "TypeError: value.match(...) is null"
      else if strStarts "_regexp_" s then
        match matchTagBody (replaceFirst "_regexp_" "" s) with
        | some (flags, source) => .ok (.hregexp flags source, st1)
        | none => .error "TypeError: value.match(...) is null"
      else if strStarts "_date_" s then
        .ok (.hdate (replaceFirst "_date_" "" s), st1)
      else if strStarts "_duplicate_" s then
        .ok (.hnull, { st1 with refs := st1.refs ++ [⟨thisId, key, replaceFirst "_duplicate_" "" s⟩] })
      else if strStarts "_symbol_" s then
        .ok (.hsymbol (replaceFirst "_symbol_" "" s), st1)
      else if s = "_undefined_" then .ok (.hundefined, st1)
      else if s = "_-Infinity_" then .ok (.hnum .ninf, st1)
      else if s = "_Infinity_" then .ok (.hnum .inf, st1)
      else if s = "_NaN_" then .ok (.hnum .nan, st1)
      else .ok (.hstr s, st1)
    | other => .ok (other, st1)

/-! ### The `JSON.parse` walk driving the reviver

`InternalizeJSONProperty` recurses children-before-parents; a child whose
revived value is `undefined` is deleted (key removed from objects, hole —
read back as `undefined` — in arrays), then the reviver runs on the
parent with the container as `this`. -/

mutual

def internalize (key : String) (holderId : Nat) (doc : JsonDoc) (st : DState) :
    Except String (HVal × DState) :=
  match doc with
  | .jnull => revive key holderId .hnull st
  | .jbool b => revive key holderId (.hbool b) st
  | .jnum v => revive key holderId (.hnum (.fin v)) st
  | .jstr s => revive key holderId (.hstr s) st
  | .jarr ds => do
    let id := st.next
    let st1 : DState := { st with heap := st.heap ++ [(id, .arr [])], next := id + 1 }
    let st2 ← internalizeElems id 0 ds st1
    revive key holderId (.href id) st2
  | .jobj fs => do
    let id := st.next
    let st1 : DState := { st with heap := st.heap ++ [(id, .omap "Object" false [])], next := id + 1 }
    let st2 ← internalizeFields id fs st1
    revive key holderId (.href id) st2

def internalizeElems (selfId : Nat) (i : Nat) (ds : List JsonDoc) (st : DState) :
    Except String DState :=
  match ds with
  | [] => .ok st
  | d :: rest => do
    let (v, st1) ← internalize (natKey i) selfId d st
    -- `undefined` deletes the element, leaving a hole that reads back as undefined
    let st2 : DState := { st1 with heap := heapSetKey st1.heap selfId (natKey i) v }
    internalizeElems selfId (i + 1) rest st2

def internalizeFields (selfId : Nat) (fs : List (String × JsonDoc)) (st : DState) :
    Except String DState :=
  match fs with
  | [] => .ok st
  | (k, d) :: rest => do
    let (v, st1) ← internalize k selfId d st
    let st2 : DState :=
      if v = .hundefined then st1  -- delete: the key is never added
      else { st1 with heap := heapSetKey st1.heap selfId k v }
    internalizeFields selfId rest st2

end

/-- `parse` (line 259) from the JSON tree level: run the reviver walk
with a fresh state whose heap holds only the synthetic wrapper object
`{'': value}` (id 0), which is the `this` of the root call. -/
def parseDoc (doc : JsonDoc) : Except String (HVal × Heap) :=
  (internalize "" 0 doc ⟨[(0, .omap "Object" false [])], 1, []⟩).map
    (fun r => (r.1, r.2.heap))

/-! ### Revived functions (the wrapper of lines 204-214)

The decoder returns for a `_function_` tag a wrapper
`(...args) => { const f = safeEval('(' + source + ')'); f(...args); }`
with `toString` and `name` overridden.  The wrapper is the `hrevived`
value; its observable pieces are modelled below.  `safeEval` is the
sandboxed evaluator, an external dependency, modelled as an oracle
mapping the evaluated text to a function on values. -/

def revivedToString : HVal → Option String
  | .hrevived _ source => some source
  | .hfunc _ source => some source
  | _ => none

def revivedName : HVal → Option String
  | .hrevived name _ => some name
  | .hfunc name _ => some name
  | _ => none

/-- Invoking the revived wrapper: evaluate `'(' + source + ')'` through
the evaluator, apply the result to the arguments — and return the
wrapper body's completion value, which is `undefined` because the body
`{ f(...args); }` has no `return`. -/
def callRevived (safeEvalOracle : String → List HVal → HVal)
    (source : String) (args : List HVal) : HVal :=
  let f := safeEvalOracle ("(" ++ source ++ ")")
  let _ := f args
  .hundefined

/-! ### String lemmas for the tag payloads -/

theorem strToList_append (a b : String) : (a ++ b).toList = a.toList ++ b.toList := rfl

theorem strStarts_self_append (p r : String) : strStarts p (p ++ r) = true := by
  simp [strStarts, strToList_append, List.take_left]

theorem toList_ne_nil (p : String) (hp : p ≠ "") : p.toList ≠ [] := by
  intro h
  exact hp (congrArg List.asString h)

theorem replaceFirstList_pref (p rest : List Char) (hp : p ≠ []) :
    replaceFirstList p [] (p ++ rest) = rest := by
  cases p with
  | nil => exact absurd rfl hp
  | cons c cs =>
    rw [List.cons_append]
    unfold replaceFirstList
    rw [← List.cons_append, List.take_left, if_pos rfl, List.drop_left]
    rfl

theorem replaceFirst_pref (p r : String) (hp : p ≠ "") : replaceFirst p "" (p ++ r) = r := by
  unfold replaceFirst
  rw [strToList_append, show ("" : String).toList = [] from rfl,
    replaceFirstList_pref p.toList r.toList (toList_ne_nil p hp)]
  rfl

theorem takeWhile_all (p : Char → Bool) (l : List Char) (h : ∀ c ∈ l, p c = true) :
    l.takeWhile p = l := by
  induction l with
  | nil => rfl
  | cons c cs ih =>
    rw [List.takeWhile_cons, h c (by simp)]
    simp [ih (fun x hx => h x (by simp [hx]))]

theorem takeWhile_append_stop (p : Char → Bool) (l : List Char) (x : Char) (r : List Char)
    (hl : ∀ c ∈ l, p c = true) (hx : p x = false) :
    (l ++ x :: r).takeWhile p = l := by
  induction l with
  | nil => simp [List.takeWhile_cons, hx]
  | cons c cs ih =>
    rw [List.cons_append, List.takeWhile_cons, hl c (by simp)]
    simp [ih (fun y hy => hl y (by simp [hy]))]

/-- The regex of lines 201/219 on a well-formed payload: name/flags
before the first `|`, source after it (no line terminators to stop the
`.*`). -/
theorem matchTagBody_split (flags source : String)
    (hfl : ∀ c ∈ flags.toList, c ≠ '|')
    (hsrc : ∀ c ∈ source.toList, isLineTerm c = false) :
    matchTagBody (flags ++ "|" ++ source) = some (flags, source) := by
  have htl : (flags ++ "|" ++ source).toList = flags.toList ++ '|' :: source.toList := by
    rw [strToList_append, strToList_append, List.append_assoc]
    rfl
  have hcon : (flags.toList ++ '|' :: source.toList).contains '|' = true := by simp
  have hname : (flags.toList ++ '|' :: source.toList).takeWhile (fun c => decide (c ≠ '|')) = flags.toList :=
    takeWhile_append_stop _ _ _ _ (fun c hc => decide_eq_true (hfl c hc)) (by simp)
  have hdrop : (flags.toList ++ '|' :: source.toList).drop (flags.toList.length + 1) = source.toList := by
    have e1 : flags.toList ++ '|' :: source.toList = (flags.toList ++ ['|']) ++ source.toList := by
      rw [List.append_assoc]; rfl
    have e2 : flags.toList.length + 1 = (flags.toList ++ ['|']).length := by
      rw [List.length_append]; rfl
    rw [e1, e2]
    exact List.drop_left _ _
  have hrest : source.toList.takeWhile (fun c => !isLineTerm c) = source.toList :=
    takeWhile_all _ _ (fun c hc => by rw [hsrc c hc]; rfl)
  unfold matchTagBody
  rw [htl, hcon, if_pos rfl, hname, hdrop, hrest]
  rfl

/-- A tag-prefix test fails whenever the first `k` characters already
differ. -/
theorem strStarts_false_of_take_ne (p a r : String) (k : Nat)
    (hk : k ≤ p.toList.length) (hka : k ≤ a.toList.length)
    (hne : p.toList.take k ≠ a.toList.take k) :
    strStarts p (a ++ r) = false := by
  apply decide_eq_false
  intro heq
  apply hne
  rw [strToList_append] at heq
  have h1 := congrArg (List.take k) heq
  rw [List.take_take, Nat.min_eq_left hk, List.take_append_of_le_length hka] at h1
  exact h1.symm

/-! ### Step lemmas for the replacer and the reviver -/

theorem replace_regexp (depth : Nat) (thisv : HVal) (key : String) (flags source : String)
    (st : RState) (h : Heap) (hk : key ≠ "") :
    replace depth thisv key (.hregexp flags source) st h =
      (.hstr ("_regexp_" ++ (flags ++ "|" ++ source)),
       ⟨st.objects, (popSync thisv st.stack st.keys).1, (popSync thisv st.stack st.keys).2⟩, h) := by
  simp only [replace, hk, reduceIte]
  rw [show "_regexp_" ++ flags ++ "|" ++ source = "_regexp_" ++ (flags ++ "|" ++ source) by
    simp [String.append_assoc]]

theorem replace_func (depth : Nat) (thisv : HVal) (key : String) (name source : String)
    (st : RState) (h : Heap) (hk : key ≠ "") :
    replace depth thisv key (.hfunc name source) st h =
      (.hstr ("_function_" ++ name ++ "|" ++
          (if nativeStub (cleanCode source) then noopSource else cleanCode source)),
       ⟨st.objects, (popSync thisv st.stack st.keys).1, (popSync thisv st.stack st.keys).2⟩, h) := by
  simp only [replace, hk, reduceIte]
  cases hns : nativeStub (cleanCode source) <;> simp [hns]

theorem replace_str_date (depth : Nat) (thisv : HVal) (key : String) (s : String)
    (st : RState) (h : Heap) (hk : key ≠ "") (hd : dateFormatTest s = true) :
    replace depth thisv key (.hstr s) st h =
      (.hstr ("_date_" ++ s),
       ⟨st.objects, (popSync thisv st.stack st.keys).1, (popSync thisv st.stack st.keys).2⟩, h) := by
  simp only [replace, hk, reduceIte, hd]

theorem replace_str_plain (depth : Nat) (thisv : HVal) (key : String) (s : String)
    (st : RState) (h : Heap) (hk : key ≠ "") (hd : dateFormatTest s = false) :
    replace depth thisv key (.hstr s) st h =
      (.hstr s,
       ⟨st.objects, (popSync thisv st.stack st.keys).1, (popSync thisv st.stack st.keys).2⟩, h) := by
  simp only [replace, hk, reduceIte, hd]
  rfl

theorem replace_symbol (depth : Nat) (thisv : HVal) (key : String) (d : String)
    (st : RState) (h : Heap) (hk : key ≠ "") :
    replace depth thisv key (.hsymbol d) st h =
      (.hstr ("_symbol_" ++ d),
       ⟨st.objects, (popSync thisv st.stack st.keys).1, (popSync thisv st.stack st.keys).2⟩, h) := by
  unfold replace
  rw [if_neg hk]

theorem replace_undefined_tag (depth : Nat) (thisv : HVal) (key : String)
    (st : RState) (h : Heap) (hk : key ≠ "") :
    replace depth thisv key .hundefined st h =
      (.hstr "_undefined_",
       ⟨st.objects, (popSync thisv st.stack st.keys).1, (popSync thisv st.stack st.keys).2⟩, h) := by
  unfold replace
  rw [if_neg hk]

theorem replace_num (depth : Nat) (thisv : HVal) (key : String) (n : JsNum)
    (st : RState) (h : Heap) (hk : key ≠ "") :
    replace depth thisv key (.hnum n) st h =
      (match n with
       | .ninf => .hstr "_-Infinity_"
       | .inf => .hstr "_Infinity_"
       | .nan => .hstr "_NaN_"
       | .fin v => .hnum (.fin v),
       ⟨st.objects, (popSync thisv st.stack st.keys).1, (popSync thisv st.stack st.keys).2⟩, h) := by
  unfold replace
  rw [if_neg hk]
  cases n <;> rfl

theorem replace_tail_eq (depth : Nat) (thisv : HVal) (key : String) (v : HVal)
    (st : RState) (h : Heap) (hk : key ≠ "")
    (hv : v = .hnull ∨ (∃ b, v = .hbool b) ∨ (∃ i, v = .href i)) :
    replace depth thisv key v st h =
      replaceTail depth key v st.objects (popSync thisv st.stack st.keys).1
        (popSync thisv st.stack st.keys).2 h := by
  unfold replace
  rw [if_neg hk]
  rcases hv with rfl | ⟨b, rfl⟩ | ⟨i, rfl⟩ <;> rfl

/-- The reviver on a string value at a non-root, non-marker key: the
pure tag dispatch of lines 200-252. -/
theorem revive_str (key : String) (thisId : Nat) (dst : DState) (s : String)
    (hk0 : key ≠ "") (hk2 : key ≠ "_constructor-name_") :
    revive key thisId (.hstr s) dst =
      (if strStarts "_function_" s then
        match matchTagBody (replaceFirst "_function_" "" s) with
        | some (name, source) => .ok (.hrevived name source, dst)
        | none => .error "TypeError: value.match(...) is null"
      else if strStarts "_regexp_" s then
        match matchTagBody (replaceFirst "_regexp_" "" s) with
        | some (flags, source) => .ok (.hregexp flags source, dst)
        | none => .error "TypeError: value.match(...) is null"
      else if strStarts "_date_" s then
        .ok (.hdate (replaceFirst "_date_" "" s), dst)
      else if strStarts "_duplicate_" s then
        .ok (.hnull, { dst with refs := dst.refs ++ [⟨thisId, key, replaceFirst "_duplicate_" "" s⟩] })
      else if strStarts "_symbol_" s then
        .ok (.hsymbol (replaceFirst "_symbol_" "" s), dst)
      else if s = "_undefined_" then .ok (.hundefined, dst)
      else if s = "_-Infinity_" then .ok (.hnum .ninf, dst)
      else if s = "_Infinity_" then .ok (.hnum .inf, dst)
      else if s = "_NaN_" then .ok (.hnum .nan, dst)
      else .ok (.hstr s, dst)) := by
  simp only [revive, hk0, hk2, reduceIte]

/-- Tag prefixes that cannot both match: instances used by the dispatch
proofs. -/
theorem noStarts_function_regexp (r : String) : strStarts "_function_" ("_regexp_" ++ r) = false :=
  strStarts_false_of_take_ne _ _ _ 2 (by decide) (by decide) (by decide)

theorem noStarts_function_date (r : String) : strStarts "_function_" ("_date_" ++ r) = false :=
  strStarts_false_of_take_ne _ _ _ 2 (by decide) (by decide) (by decide)

theorem noStarts_regexp_date (r : String) : strStarts "_regexp_" ("_date_" ++ r) = false :=
  strStarts_false_of_take_ne _ _ _ 2 (by decide) (by decide) (by decide)

theorem noStarts_function_symbol (r : String) : strStarts "_function_" ("_symbol_" ++ r) = false :=
  strStarts_false_of_take_ne _ _ _ 2 (by decide) (by decide) (by decide)

theorem noStarts_regexp_symbol (r : String) : strStarts "_regexp_" ("_symbol_" ++ r) = false :=
  strStarts_false_of_take_ne _ _ _ 2 (by decide) (by decide) (by decide)

theorem noStarts_date_symbol (r : String) : strStarts "_date_" ("_symbol_" ++ r) = false :=
  strStarts_false_of_take_ne _ _ _ 2 (by decide) (by decide) (by decide)

theorem noStarts_duplicate_symbol (r : String) : strStarts "_duplicate_" ("_symbol_" ++ r) = false :=
  strStarts_false_of_take_ne _ _ _ 2 (by decide) (by decide) (by decide)

theorem noStarts_function_duplicate (r : String) : strStarts "_function_" ("_duplicate_" ++ r) = false :=
  strStarts_false_of_take_ne _ _ _ 2 (by decide) (by decide) (by decide)

theorem noStarts_regexp_duplicate (r : String) : strStarts "_regexp_" ("_duplicate_" ++ r) = false :=
  strStarts_false_of_take_ne _ _ _ 2 (by decide) (by decide) (by decide)

theorem noStarts_date_duplicate (r : String) : strStarts "_date_" ("_duplicate_" ++ r) = false :=
  strStarts_false_of_take_ne _ _ _ 3 (by decide) (by decide) (by decide)

/-! ### Lemmas about the source normalizer -/

theorem quoteUpd_flags (p1 : Option Char) (c : Char) (st : ScanSt) :
    (quoteUpd p1 c st).inBlock = st.inBlock ∧ (quoteUpd p1 c st).inLine = st.inLine := by
  rcases st with ⟨q, b, l, r⟩
  cases q
  · exact ⟨rfl, rfl⟩
  · simp only [quoteUpd]
    split_ifs <;> exact ⟨rfl, rfl⟩

theorem regexUpd_flags (p1 : Option Char) (c : Char) (st : ScanSt) :
    (regexUpd p1 c st).inBlock = st.inBlock ∧ (regexUpd p1 c st).inLine = st.inLine := by
  unfold regexUpd
  split_ifs <;> exact ⟨rfl, rfl⟩

theorem blockUpd_flags (p1 p2 : Option Char) (st : ScanSt) (hb : st.inBlock = false) :
    (blockUpd p1 p2 st).inBlock = false ∧ (blockUpd p1 p2 st).inLine = st.inLine := by
  unfold blockUpd
  split_ifs <;> simp_all

theorem lineUpd_flags (c : Char) (st : ScanSt) (hl : st.inLine = false) :
    (lineUpd c st).inLine = false ∧ (lineUpd c st).inBlock = st.inBlock := by
  unfold lineUpd
  split_ifs <;> simp_all

/-- Outside a slash there is no way into a comment: if the current
character is not `/` and the scanner is in no comment mode, it stays in
no comment mode. -/
theorem scanStep_no_slash (st : ScanSt) (p1 p2 : Option Char) (c : Char) (nxt : Option Char)
    (hc : c ≠ '/') (hb : st.inBlock = false) (hl : st.inLine = false) :
    (scanStep st p1 p2 c nxt).inBlock = false ∧ (scanStep st p1 p2 c nxt).inLine = false := by
  unfold scanStep
  split_ifs with h1 h2 h3 h4 h5
  · exact ⟨hb, hl⟩
  · simp at h3; exact absurd h3.1 hc
  · simp at h4; exact absurd h4.1 hc
  · exact ⟨hb, hl⟩
  · exact ⟨hb, hl⟩
  · have hq := quoteUpd_flags p1 c st
    have hr := regexUpd_flags p1 c (quoteUpd p1 c st)
    have hbk := blockUpd_flags p1 p2 (regexUpd p1 c (quoteUpd p1 c st))
      (by rw [hr.1, hq.1]; exact hb)
    have hln := lineUpd_flags c (blockUpd p1 p2 (regexUpd p1 c (quoteUpd p1 c st)))
      (by rw [hbk.2, hr.2, hq.2]; exact hl)
    exact ⟨by rw [hln.2]; exact hbk.1, hln.1⟩

theorem rccGo_no_slash (cs : List Char) : ∀ (st : ScanSt) (p1 p2 : Option Char),
    (∀ c ∈ cs, c ≠ '/') → st.inBlock = false → st.inLine = false →
    rccGo st p1 p2 cs = cs := by
  induction cs with
  | nil => intros; rfl
  | cons c cs ih =>
    intro st p1 p2 hc hb hl
    have hstep := scanStep_no_slash st p1 p2 c cs.head? (hc c (by simp)) hb hl
    simp only [rccGo]
    rw [ih _ (some c) p1 (fun x hx => hc x (by simp [hx])) hstep.1 hstep.2]
    simp [hstep.1, hstep.2]

theorem removeCodeComments_no_slash (s : String) (h : ∀ c ∈ s.toList, c ≠ '/') :
    removeCodeComments s = s := by
  unfold removeCodeComments
  rw [rccGo_no_slash s.toList ScanSt.init none none h rfl rfl]
  rfl

theorem collapseGo_no_nl (cs : List Char) (h : ∀ c ∈ cs, c ≠ '\n') :
    collapseGo false cs = cs := by
  induction cs with
  | nil => rfl
  | cons c cs ih =>
    unfold collapseGo
    rw [if_neg (by simpa using h c (by simp))]
    rw [ih (fun x hx => h x (by simp [hx]))]

theorem mem_collapseGo (b : Bool) (cs : List Char) (x : Char) (hx : x ∈ collapseGo b cs) :
    x ∈ cs := by
  induction cs generalizing b with
  | nil => simp [collapseGo] at hx
  | cons c cs ih =>
    cases b with
    | true =>
      unfold collapseGo at hx
      by_cases hw : isJsWs c
      · rw [if_pos hw] at hx
        exact List.mem_cons_of_mem _ (ih _ hx)
      · rw [if_neg hw] at hx
        rcases List.mem_cons.mp hx with rfl | hx'
        · exact List.mem_cons_self _ _
        · exact List.mem_cons_of_mem _ (ih _ hx')
    | false =>
      unfold collapseGo at hx
      by_cases hw : c = '\n'
      · rw [if_pos hw] at hx
        exact List.mem_cons_of_mem _ (ih _ hx)
      · rw [if_neg hw] at hx
        rcases List.mem_cons.mp hx with rfl | hx'
        · exact List.mem_cons_self _ _
        · exact List.mem_cons_of_mem _ (ih _ hx')

theorem collapseGo_out_no_nl (b : Bool) (cs : List Char) :
    ∀ x ∈ collapseGo b cs, x ≠ '\n' := by
  induction cs generalizing b with
  | nil => simp [collapseGo]
  | cons c cs ih =>
    intro x hx
    cases b with
    | true =>
      unfold collapseGo at hx
      by_cases hw : isJsWs c
      · rw [if_pos hw] at hx
        exact ih _ x hx
      · rw [if_neg hw] at hx
        rcases List.mem_cons.mp hx with rfl | hx'
        · intro heq
          exact hw (by rw [heq]; rfl)
        · exact ih _ x hx'
    | false =>
      unfold collapseGo at hx
      by_cases hw : c = '\n'
      · rw [if_pos hw] at hx
        exact ih _ x hx
      · rw [if_neg hw] at hx
        rcases List.mem_cons.mp hx with rfl | hx'
        · exact hw
        · exact ih _ x hx'

theorem dropWhile_head_not (p : Char → Bool) (l : List Char) :
    l.dropWhile p = [] ∨ ∃ c t, l.dropWhile p = c :: t ∧ p c = false := by
  induction l with
  | nil => left; rfl
  | cons c cs ih =>
    by_cases h : p c
    · simpa [List.dropWhile_cons, h] using ih
    · right
      exact ⟨c, cs, by simp [List.dropWhile_cons, h], by simp [h]⟩

theorem dropWhile_eq_self_of_head (p : Char → Bool) (c : Char) (t : List Char)
    (hpc : p c = false) : (c :: t).dropWhile p = c :: t := by
  simp [List.dropWhile_cons, hpc]

theorem dropWhile_idem (p : Char → Bool) (l : List Char) :
    (l.dropWhile p).dropWhile p = l.dropWhile p := by
  rcases dropWhile_head_not p l with h | ⟨c, t, heq, hpc⟩
  · rw [h]; rfl
  · rw [heq]
    exact dropWhile_eq_self_of_head p c t hpc

theorem mem_dropWhile (p : Char → Bool) (l : List Char) (x : Char)
    (hx : x ∈ l.dropWhile p) : x ∈ l := by
  induction l with
  | nil => simp [List.dropWhile] at hx
  | cons c cs ih =>
    by_cases h : p c
    · rw [List.dropWhile_cons, if_pos h] at hx
      exact List.mem_cons_of_mem _ (ih hx)
    · rw [List.dropWhile_cons, if_neg h] at hx
      exact hx

theorem mem_jsTrimList (cs : List Char) (x : Char) (hx : x ∈ jsTrimList cs) : x ∈ cs := by
  unfold jsTrimList at hx
  rw [List.mem_reverse] at hx
  have h1 := mem_dropWhile _ _ _ hx
  rw [List.mem_reverse] at h1
  exact mem_dropWhile _ _ _ h1

theorem jsTrimList_idem (cs : List Char) : jsTrimList (jsTrimList cs) = jsTrimList cs := by
  unfold jsTrimList
  rcases dropWhile_head_not isJsWs cs with hy | ⟨c, t, hy, hpc⟩
  · rw [hy]
    rfl
  · rw [hy]
    rcases List.dropWhile_suffix (l := (c :: t).reverse) (p := isJsWs) with ⟨u, hu⟩
    set w := (c :: t).reverse.dropWhile isJsWs with hw
    cases hz : w.reverse with
    | nil => rfl
    | cons z0 zs =>
      have hyz : c :: t = w.reverse ++ u.reverse := by
        have := congrArg List.reverse hu
        simpa [List.reverse_append] using this.symm
      rw [hz] at hyz
      have hz0 : z0 = c := by
        have := congrArg (fun l => l.head?) hyz
        simpa using this.symm
      subst hz0
      rw [dropWhile_eq_self_of_head _ _ _ hpc, ← hz, List.reverse_reverse, hw,
        dropWhile_idem, ← hw, hz]

/-! ### The encoder frame property (machinery for claim C8)

`ObjStep` is the only change the encoder may make to a single heap
object: attaching (or overwriting) the `_constructor-name_` sentinel on a
mutable non-array object whose constructor name is truthy and not
`Object`.  `HeapFrame` lifts this pointwise to the heap: same objects in
the same order with the same ids, each unchanged or marker-extended —
in particular nothing is ever removed.  The id-uniqueness hypothesis
reflects the obvious invariant of real JavaScript heaps. -/

inductive ObjStep : HObj → HObj → Prop
  | refl (o : HObj) : ObjStep o o
  | marker (ctor : String) (fields : List (String × HVal)) (h1 : ctor ≠ "") (h2 : ctor ≠ "Object") :
      ObjStep (.omap ctor false fields)
        (.omap ctor false (setField "_constructor-name_" (.hstr ctor) fields))

def HeapFrame (h h' : Heap) : Prop :=
  List.Forall₂ (fun a b => a.1 = b.1 ∧ ObjStep a.2 b.2) h h'

theorem heapFrame_rfl (h : Heap) : HeapFrame h h := by
  induction h with
  | nil => exact List.Forall₂.nil
  | cons e t ih => exact List.Forall₂.cons ⟨rfl, ObjStep.refl e.2⟩ ih

theorem map_id_of {α : Type} (g : α → α) (fs : List α) (h : ∀ f ∈ fs, g f = f) :
    fs.map g = fs := by
  induction fs with
  | nil => rfl
  | cons f t ih =>
    rw [List.map_cons, h f (by simp), ih (fun x hx => h x (by simp [hx]))]

theorem setField_idem (k : String) (v : HVal) (fs : List (String × HVal)) :
    setField k v (setField k v fs) = setField k v fs := by
  unfold setField
  by_cases hany : fs.any (fun f => f.1 = k)
  · rw [if_pos hany]
    have hany2 : (fs.map (fun f => if f.1 = k then (k, v) else f)).any (fun f => f.1 = k) := by
      rcases List.any_eq_true.mp hany with ⟨f, hf, hfk⟩
      refine List.any_eq_true.mpr ⟨(k, v), List.mem_map.mpr ⟨f, hf, ?_⟩, by simp⟩
      simp only [decide_eq_true_eq] at hfk
      simp [hfk]
    rw [if_pos hany2, List.map_map]
    refine congrArg (fun g => List.map g fs) ?_
    funext f
    by_cases hf : f.1 = k <;> simp [hf]
  · rw [if_neg hany]
    have hany2 : (fs ++ [(k, v)]).any (fun f => f.1 = k) = true := by simp
    rw [if_pos hany2, List.map_append]
    have h1 : fs.map (fun f => if f.1 = k then (k, v) else f) = fs := by
      refine map_id_of _ _ (fun f hf => ?_)
      have : ¬ (f.1 = k) := by
        intro hk
        exact hany (List.any_eq_true.mpr ⟨f, hf, by simp [hk]⟩)
      simp [this]
    rw [h1]
    simp

theorem objStep_trans {a b c : HObj} (h1 : ObjStep a b) (h2 : ObjStep b c) : ObjStep a c := by
  cases h1 with
  | refl => exact h2
  | marker ctor fields hc1 hc2 =>
    cases h2 with
    | refl => exact ObjStep.marker ctor fields hc1 hc2
    | marker ctor' fields' hc1' hc2' =>
      rw [setField_idem]
      exact ObjStep.marker ctor fields hc1 hc2

theorem heapFrame_trans {h1 h2 h3 : Heap} (a : HeapFrame h1 h2) (b : HeapFrame h2 h3) :
    HeapFrame h1 h3 := by
  induction a generalizing h3 with
  | nil => cases b; exact List.Forall₂.nil
  | cons hab t ih =>
    cases b with
    | cons hbc t' =>
      exact List.Forall₂.cons ⟨hab.1.trans hbc.1, objStep_trans hab.2 hbc.2⟩ (ih t')

theorem heapFrame_ids {h h' : Heap} (a : HeapFrame h h') :
    h.map Prod.fst = h'.map Prod.fst := by
  induction a with
  | nil => rfl
  | cons hab t ih => simp [hab.1, ih]

theorem heapPut_frame (h : Heap) (id : Nat) (o o' : HObj)
    (hget : heapGet h id = some o) (hnd : (h.map Prod.fst).Nodup)
    (hstep : ObjStep o o') : HeapFrame h (heapPut h id o') := by
  induction h with
  | nil => simp [heapGet] at hget
  | cons e t ih =>
    by_cases hid : e.1 = id
    · have ho : e.2 = o := by
        unfold heapGet at hget
        rw [List.find?_cons_of_pos _ (by simp [hid])] at hget
        simpa using hget
      have hput : heapPut (e :: t) id o' = (id, o') :: t := by
        unfold heapPut
        rw [List.map_cons, if_pos hid]
        have : t.map (fun x => if x.1 = id then (id, o') else x) = t := by
          refine map_id_of _ _ (fun x hx => ?_)
          have : x.1 ≠ id := by
            intro hx1
            rw [List.map_cons, hid] at hnd
            rcases List.nodup_cons.mp hnd with ⟨hni, _⟩
            exact hni (List.mem_map.mpr ⟨x, hx, hx1⟩)
          simp [this]
        rw [this]
      rw [hput]
      exact List.Forall₂.cons ⟨hid, ho ▸ hstep⟩ (heapFrame_rfl t)
    · have hput : heapPut (e :: t) id o' = e :: heapPut t id o' := by
        unfold heapPut
        rw [List.map_cons, if_neg hid]
      rw [hput]
      refine List.Forall₂.cons ⟨rfl, ObjStep.refl e.2⟩ ?_
      refine ih ?_ ?_
      · unfold heapGet at hget ⊢
        rwa [List.find?_cons_of_neg _ (by simp [hid])] at hget
      · rw [List.map_cons] at hnd
        exact (List.nodup_cons.mp hnd).2

theorem attachMarker_frame (h : Heap) (v : HVal) (hnd : (h.map Prod.fst).Nodup) :
    HeapFrame h (attachMarker h v) := by
  cases v with
  | href id =>
    simp only [attachMarker]
    cases hget : heapGet h id with
    | none => exact heapFrame_rfl h
    | some o =>
      cases o with
      | arr elems => exact heapFrame_rfl h
      | omap ctor frozen fields =>
        dsimp only
        by_cases hc : ctor ≠ "" ∧ ctor ≠ "Object"
        · rw [if_pos hc]
          
          cases hfr : frozen with
          | true => exact heapFrame_rfl h
          | false =>
            subst hfr
            exact heapPut_frame h id _ _ hget hnd (ObjStep.marker ctor fields hc.1 hc.2)
        · rw [if_neg hc]
          exact heapFrame_rfl h
  | hnull => exact heapFrame_rfl h
  | hundefined => exact heapFrame_rfl h
  | hbool b => exact heapFrame_rfl h
  | hnum n => exact heapFrame_rfl h
  | hstr s => exact heapFrame_rfl h
  | hregexp f s => exact heapFrame_rfl h
  | hfunc n s => exact heapFrame_rfl h
  | hsymbol d => exact heapFrame_rfl h
  | hdate i => exact heapFrame_rfl h
  | hrevived n s => exact heapFrame_rfl h


theorem replaceTail_frame (depth : Nat) (key : String) (v : HVal)
    (objects : List (String × HVal)) (stack1 : List HVal) (keys1 : List String)
    (h : Heap) (hnd : (h.map Prod.fst).Nodup) :
    HeapFrame h (replaceTail depth key v objects stack1 keys1 h).2.2 := by
  unfold replaceTail
  by_cases hd : stack1.length ≥ depth
  · rw [if_pos hd]
    split <;> first
      | exact heapFrame_rfl h
      | (split <;> exact heapFrame_rfl h)
  · rw [if_neg hd]
    cases hfind : List.find? (fun o => jsStrictEq o.2 v) objects with
    | some o => exact heapFrame_rfl h
    | none =>
      dsimp only
      by_cases hcond : jsTruthy v ∧ isObjectRef h v
      · rw [if_pos hcond]
        exact attachMarker_frame h v hnd
      · rw [if_neg hcond]
        exact heapFrame_rfl h

theorem replace_frame (depth : Nat) (thisv : HVal) (key : String) (value : HVal)
    (st : RState) (h : Heap) (hnd : (h.map Prod.fst).Nodup) :
    HeapFrame h (replace depth thisv key value st h).2.2 := by
  by_cases hk : key = ""
  · subst hk
    exact heapFrame_rfl h
  · simp only [replace, hk, reduceIte]
    cases value with
    | hnull => exact replaceTail_frame _ _ _ _ _ _ _ hnd
    | hbool b => exact replaceTail_frame _ _ _ _ _ _ _ hnd
    | href i => exact replaceTail_frame _ _ _ _ _ _ _ hnd
    | hdate iso => exact replaceTail_frame _ _ _ _ _ _ _ hnd
    | hrevived n s => exact replaceTail_frame _ _ _ _ _ _ _ hnd
    | hregexp f s => exact heapFrame_rfl h
    | hfunc n s => cases hns : nativeStub (cleanCode s) <;> simp only [hns, reduceIte] <;> exact heapFrame_rfl h
    | hsymbol d => exact heapFrame_rfl h
    | hstr s => cases hds : dateFormatTest s <;> simp only [hds, reduceIte] <;> exact heapFrame_rfl h
    | hundefined => exact heapFrame_rfl h
    | hnum n => cases n <;> exact heapFrame_rfl h

theorem nodup_of_frame {h h' : Heap} (a : HeapFrame h h')
    (hnd : (h.map Prod.fst).Nodup) : (h'.map Prod.fst).Nodup := by
  rwa [← heapFrame_ids a]

theorem serializeArrGo_frame (recur : SerStep)
    (hrec : ∀ (h : Heap) (st : RState) (thisv : HVal) (key : String) (value : HVal),
      (h.map Prod.fst).Nodup → HeapFrame h (recur h st thisv key value).2.2)
    (elems : List HVal) : ∀ (i selfId : Nat) (h : Heap) (st : RState),
      (h.map Prod.fst).Nodup → HeapFrame h (serializeArrGo recur selfId i elems h st).2.2 := by
  induction elems with
  | nil => intros; exact heapFrame_rfl _
  | cons e es ih =>
    intro i selfId h st hnd
    have h1 := hrec h st (.href selfId) (natKey i) e hnd
    exact heapFrame_trans h1 (ih (i + 1) selfId _ _ (nodup_of_frame h1 hnd))

theorem serializeFieldsGo_frame (recur : SerStep)
    (hrec : ∀ (h : Heap) (st : RState) (thisv : HVal) (key : String) (value : HVal),
      (h.map Prod.fst).Nodup → HeapFrame h (recur h st thisv key value).2.2)
    (fields : List (String × HVal)) : ∀ (selfId : Nat) (h : Heap) (st : RState),
      (h.map Prod.fst).Nodup → HeapFrame h (serializeFieldsGo recur selfId fields h st).2.2 := by
  induction fields with
  | nil => intros; exact heapFrame_rfl _
  | cons f fs ih =>
    intro selfId h st hnd
    have h1 := hrec h st (.href selfId) f.1 f.2 hnd
    exact heapFrame_trans h1 (ih selfId _ _ (nodup_of_frame h1 hnd))


theorem serializeValue_frame : ∀ (fuel depth : Nat) (h : Heap) (st : RState) (thisv : HVal)
    (key : String) (value : HVal), (h.map Prod.fst).Nodup →
    HeapFrame h (serializeValue depth fuel h st thisv key value).2.2 := by
  intro fuel
  induction fuel using Nat.strong_induction_on with
  | _ fuel IH =>
    match fuel with
    | 0 => exact fun depth h st thisv key value _ => heapFrame_rfl h
    | f + 1 =>
      intro depth h st thisv key value hnd
      obtain ⟨v1, st1, h1, heq⟩ : ∃ v1 st1 h1,
          replace depth thisv key (toJSONStep value) st h = (v1, st1, h1) := ⟨_, _, _, rfl⟩
      have hrep : HeapFrame h h1 := by
        have := replace_frame depth thisv key (toJSONStep value) st h hnd
        rwa [heq] at this
      have hnd1 : (h1.map Prod.fst).Nodup := nodup_of_frame hrep hnd
      have hrecF : ∀ (hh : Heap) (ss : RState) (tt : HVal) (kk : String) (vv : HVal),
          (hh.map Prod.fst).Nodup →
          HeapFrame hh (serializeValue depth f hh ss tt kk vv).2.2 :=
        fun hh ss tt kk vv hn => IH f (Nat.lt_succ_self f) depth hh ss tt kk vv hn
      show HeapFrame h (serializeValue depth (f + 1) h st thisv key value).2.2
      simp only [serializeValue, heq]
      cases v1 with
      | href id =>
        dsimp only
        cases hget : heapGet h1 id with
        | none => exact hrep
        | some o =>
          cases o with
          | arr elems =>
            dsimp only
            exact heapFrame_trans hrep (serializeArrGo_frame _ hrecF elems 0 id h1 st1 hnd1)
          | omap ctor frozen fields =>
            dsimp only
            exact heapFrame_trans hrep (serializeFieldsGo_frame _ hrecF fields id h1 st1 hnd1)
      | hnull => exact hrep
      | hundefined => exact hrep
      | hbool b => exact hrep
      | hnum n => cases n <;> exact hrep
      | hstr s => exact hrep
      | hregexp fl sr => exact hrep
      | hfunc n s => exact hrep
      | hsymbol d => exact hrep
      | hdate i => exact hrep
      | hrevived n s => exact hrep

/-! ## Claims -/

/-- The heap of `a = {}; a.self = a;`: a single plain object whose field
`self` is a reference to the object itself. -/
def cycleHeap : Heap := [(5, .omap "Object" false [("self", .href 5)])]

/-- The heap produced by decoding the encoding of `cycleHeap`: the
wrapper object (id 0) and the reconstructed root (id 1) whose `self`
field refers back to id 1 itself. -/
def cycleOutHeap : Heap :=
  [(0, .omap "Object" false []), (1, .omap "Object" false [("self", .href 1)])]

/-- C2: for `a = {}; a.self = a;`, encoding yields
`{"self":"_duplicate_root"}` and decoding that yields a root object `b`
(heap id 1) whose field `self` holds the reference `b` itself — the
self-reference is restored as reference identity to the decoded root
(the deferred `root` patch), not as a copy or a null placeholder. -/
theorem claim_C2_cycle_roundtrip :
    (stringifyDoc 10 cycleHeap (.href 5)).1 = some (.jobj [("self", .jstr "_duplicate_root")]) ∧
    parseDoc (.jobj [("self", .jstr "_duplicate_root")]) = .ok (.href 1, cycleOutHeap) ∧
    getStep cycleOutHeap (.href 1) "self" = .href 1 :=
  ⟨rfl, rfl, rfl⟩

/-- C3: decoding a payload whose duplicate marker names a path that does
not resolve (`root.nope`) completes normally — no error is raised; the
resolution yields `undefined` (lodash `get` on a missing path) and that
placeholder is silently written at the marker's target key `a`.  The
claim (and spec section 7) says a descriptive error naming the path
should be raised instead; the code does not. -/
theorem claim_C3_unresolved_ref_is_silent :
    parseDoc (.jobj [("a", .jstr "_duplicate_root.nope")]) =
      .ok (.href 1, [(0, .omap "Object" false []),
                     (1, .omap "Object" false [("a", .hundefined)])]) :=
  rfl

/-- An evaluator oracle under which the text `(x => x + 1)` evaluates to
the successor function on integer arguments. -/
def incOracle : String → List HVal → HVal
  | _, [.hnum (.fin v)] => .hnum (.fin (v + 1))
  | _, _ => .hnull

/-- C5: decoding an encoded function yields a wrapper whose `toString`
and `name` report the original source and name, and which does not call
the evaluator at decode time; but the wrapper's body `{ f(...args); }`
discards the result of `f`, so every invocation returns `undefined` —
for `x => x + 1` applied to `1` the original produces `2` while the
revived callable produces `undefined`.  The code contradicts the claim
(and spec section 8's "behaves as the original for the same inputs"). -/
theorem claim_C5_revived_call_returns_undefined :
    (∀ ev source args, callRevived ev source args = .hundefined) ∧
    revive "k" 0 (.hstr "_function_inc|x => x + 1") ⟨[], 1, []⟩ =
      .ok (.hrevived "inc" "x => x + 1", ⟨[], 1, []⟩) ∧
    revivedToString (.hrevived "inc" "x => x + 1") = some "x => x + 1" ∧
    revivedName (.hrevived "inc" "x => x + 1") = some "inc" ∧
    incOracle "(x => x + 1)" [.hnum (.fin 1)] = .hnum (.fin 2) ∧
    callRevived incOracle "x => x + 1" [.hnum (.fin 1)] = .hundefined ∧
    HVal.hundefined ≠ HVal.hnum (.fin 2) :=
  ⟨fun _ _ _ => rfl, rfl, rfl, rfl, rfl, rfl, by decide⟩

/-- C10: on the synthetic root call (key `""`) the replacer resets its
state and returns the root value unchanged, with no kind dispatch or
tagging; consequently `stringify(undefined)` and `stringify` of a
top-level function produce no JSON text (`JSON.stringify` returns
`undefined`), and `stringify` of a top-level regular expression produces
the text of an empty object. -/
theorem claim_C10_root_call_untagged :
    (∀ (depth : Nat) (thisv value : HVal) (st : RState) (h : Heap),
        replace depth thisv "" value st h = (value, ⟨[("root", value)], [], ["root"]⟩, h)) ∧
    stringify [] .hundefined = none ∧
    (∀ name source, stringify [] (.hfunc name source) = none) ∧
    (∀ flags source, stringify [] (.hregexp flags source) = some "{}") :=
  ⟨fun _ _ _ _ _ => rfl, rfl, fun _ _ => rfl, fun _ _ => rfl⟩

/-- One encode step followed by one decode step at the same key: the
composition an extended value goes through when embedded at a non-root
position of a graph (`toJSON`, then `replace`; the JSON text layer is
the identity on the tagged string; then `revive`). -/
def stepRoundtrip (key : String) (thisv : HVal) (st : RState) (h : Heap)
    (thisId : Nat) (dst : DState) (v : HVal) : Except String HVal :=
  (revive key thisId (replace 10 thisv key (toJSONStep v) st h).1 dst).map (·.1)

/-- C4: each extended value — a regular expression with flags (no `|`
in the flags, no line terminator in the source, as for every regexp
written in source text), a date (its `toJSON` ISO text matching the date
pattern), a symbol with description text, `undefined`, `NaN`,
`Infinity`, `-Infinity` — survives the encode/decode step composition
with equivalent observable behavior: same flags and source, same ISO
timestamp text, same description, and the same sentinel value. -/
theorem claim_C4_extended_roundtrip (key : String)
    (hk1 : key ≠ "") (hk2 : key ≠ "_constructor-name_")
    (thisv : HVal) (st : RState) (h : Heap) (thisId : Nat) (dst : DState)
    (flags source : String) (hfl : ∀ c ∈ flags.toList, c ≠ '|')
    (hsrc : ∀ c ∈ source.toList, isLineTerm c = false)
    (iso : String) (hiso : dateFormatTest iso = true)
    (desc : String) :
    stepRoundtrip key thisv st h thisId dst (.hregexp flags source) = .ok (.hregexp flags source) ∧
    stepRoundtrip key thisv st h thisId dst (.hdate iso) = .ok (.hdate iso) ∧
    stepRoundtrip key thisv st h thisId dst (.hsymbol desc) = .ok (.hsymbol desc) ∧
    stepRoundtrip key thisv st h thisId dst .hundefined = .ok .hundefined ∧
    stepRoundtrip key thisv st h thisId dst (.hnum .nan) = .ok (.hnum .nan) ∧
    stepRoundtrip key thisv st h thisId dst (.hnum .inf) = .ok (.hnum .inf) ∧
    stepRoundtrip key thisv st h thisId dst (.hnum .ninf) = .ok (.hnum .ninf) := by
  refine ⟨?_, ?_, ?_, ?_, ?_, ?_, ?_⟩
  · unfold stepRoundtrip
    rw [show toJSONStep (.hregexp flags source) = .hregexp flags source from rfl,
      replace_regexp 10 thisv key flags source st h hk1]
    rw [show (HVal.hstr ("_regexp_" ++ (flags ++ "|" ++ source)),
        RState.mk st.objects (popSync thisv st.stack st.keys).1 (popSync thisv st.stack st.keys).2,
        h).1 = HVal.hstr ("_regexp_" ++ (flags ++ "|" ++ source)) from rfl]
    rw [revive_str key thisId dst _ hk1 hk2, noStarts_function_regexp,
      strStarts_self_append, replaceFirst_pref _ _ (by decide),
      matchTagBody_split flags source hfl hsrc]
    rfl
  · unfold stepRoundtrip
    rw [show toJSONStep (.hdate iso) = .hstr iso from rfl,
      replace_str_date 10 thisv key iso st h hk1 hiso]
    rw [show (HVal.hstr ("_date_" ++ iso),
        RState.mk st.objects (popSync thisv st.stack st.keys).1 (popSync thisv st.stack st.keys).2,
        h).1 = HVal.hstr ("_date_" ++ iso) from rfl]
    rw [revive_str key thisId dst _ hk1 hk2, noStarts_function_date, noStarts_regexp_date,
      strStarts_self_append, replaceFirst_pref _ _ (by decide)]
    rfl
  · unfold stepRoundtrip
    rw [show toJSONStep (.hsymbol desc) = .hsymbol desc from rfl,
      replace_symbol 10 thisv key desc st h hk1]
    rw [show (HVal.hstr ("_symbol_" ++ desc),
        RState.mk st.objects (popSync thisv st.stack st.keys).1 (popSync thisv st.stack st.keys).2,
        h).1 = HVal.hstr ("_symbol_" ++ desc) from rfl]
    rw [revive_str key thisId dst _ hk1 hk2, noStarts_function_symbol, noStarts_regexp_symbol,
      noStarts_date_symbol, noStarts_duplicate_symbol,
      strStarts_self_append, replaceFirst_pref _ _ (by decide)]
    rfl
  · unfold stepRoundtrip
    rw [show toJSONStep .hundefined = .hundefined from rfl,
      replace_undefined_tag 10 thisv key st h hk1]
    rw [revive_str key thisId dst _ hk1 hk2]
    rfl
  · unfold stepRoundtrip
    rw [show toJSONStep (.hnum .nan) = .hnum .nan from rfl,
      replace_num 10 thisv key .nan st h hk1]
    rw [revive_str key thisId dst _ hk1 hk2]
    rfl
  · unfold stepRoundtrip
    rw [show toJSONStep (.hnum .inf) = .hnum .inf from rfl,
      replace_num 10 thisv key .inf st h hk1]
    rw [revive_str key thisId dst _ hk1 hk2]
    rfl
  · unfold stepRoundtrip
    rw [show toJSONStep (.hnum .ninf) = .hnum .ninf from rfl,
      replace_num 10 thisv key .ninf st h hk1]
    rw [revive_str key thisId dst _ hk1 hk2]
    rfl

/-- Witness for C4 at concrete inputs: key `k`, the regexp `/a|b/gi`, the
date `2020-01-01T00:00:00.000Z`, the symbol description `hello`. -/
theorem claim_C4_extended_roundtrip_witness :
    ((∀ c ∈ "gi".toList, c ≠ '|') ∧ dateFormatTest "2020-01-01T00:00:00.000Z" = true) ∧
    (stepRoundtrip "k" .hnull ⟨[], [], []⟩ [] 0 ⟨[], 0, []⟩ (.hregexp "gi" "a|b") =
        .ok (.hregexp "gi" "a|b") ∧
      stepRoundtrip "k" .hnull ⟨[], [], []⟩ [] 0 ⟨[], 0, []⟩ (.hdate "2020-01-01T00:00:00.000Z") =
        .ok (.hdate "2020-01-01T00:00:00.000Z") ∧
      stepRoundtrip "k" .hnull ⟨[], [], []⟩ [] 0 ⟨[], 0, []⟩ (.hsymbol "hello") =
        .ok (.hsymbol "hello") ∧
      stepRoundtrip "k" .hnull ⟨[], [], []⟩ [] 0 ⟨[], 0, []⟩ .hundefined = .ok .hundefined ∧
      stepRoundtrip "k" .hnull ⟨[], [], []⟩ [] 0 ⟨[], 0, []⟩ (.hnum .nan) = .ok (.hnum .nan) ∧
      stepRoundtrip "k" .hnull ⟨[], [], []⟩ [] 0 ⟨[], 0, []⟩ (.hnum .inf) = .ok (.hnum .inf) ∧
      stepRoundtrip "k" .hnull ⟨[], [], []⟩ [] 0 ⟨[], 0, []⟩ (.hnum .ninf) = .ok (.hnum .ninf)) :=
  ⟨⟨by decide, by decide⟩,
    claim_C4_extended_roundtrip "k" (by decide) (by decide) .hnull ⟨[], [], []⟩ [] 0 ⟨[], 0, []⟩
      "gi" "a|b" (by decide) (by decide) "2020-01-01T00:00:00.000Z" (by decide) "hello"⟩

/-- C8: encoding mutates the caller's input graph only by attaching the
`_constructor-name_` sentinel property to mutable (non-frozen) object
values whose constructor name is truthy and not the generic `Object`
(arrays are excluded by the `isobject` test); it removes nothing it
attached — the marker remains on the source graph after `stringify`
returns — and every other object, key and value of the caller's graph
is left unchanged (`ObjStep`/`HeapFrame` admit no other difference). -/
theorem claim_C8_stringify_mutation_frame (h : Heap) (v : HVal)
    (hnd : (h.map Prod.fst).Nodup) :
    HeapFrame h (stringifyDoc 10 h v).2.2 :=
  serializeValue_frame (h.length + 2) 10 h ⟨[], [], []⟩ .hnull "" v hnd

/-- A caller graph with a `Foo`-class instance, for the C8 witness. -/
def fooHeap : Heap :=
  [(0, .omap "Object" false [("m", .href 1)]),
   (1, .omap "Foo" false [("x", .hnum (.fin 1))])]

/-- Witness for C8 at the concrete graph `fooHeap`. -/
theorem claim_C8_stringify_mutation_frame_witness :
    (fooHeap.map Prod.fst).Nodup ∧ HeapFrame fooHeap (stringifyDoc 10 fooHeap (.href 0)).2.2 :=
  ⟨by decide, claim_C8_stringify_mutation_frame fooHeap (.href 0) (by decide)⟩

/-- C6 counterexample: the normalizer is not idempotent.  For
`"x/\n/y"` the comment scan removes nothing (both slashes open regex
literals, closed by the newline resp. the end of input), but collapsing
the newline juxtaposes the two slashes, so the second pass reads `//y`
as a line comment: `normalize("x/\n/y") = "x//y"` while
`normalize(normalize("x/\n/y")) = "x"`. -/
theorem claim_C6_counterexample :
    cleanCode "x/\n/y" = "x//y" ∧ cleanCode (cleanCode "x/\n/y") = "x" ∧
      ("x" : String) ≠ "x//y" :=
  ⟨by decide, by decide, by decide⟩

/-- C6 (amended): the normalizer is idempotent on source texts that
contain no `/` character (then the comment scan is the identity, and
collapsing/trimming stabilize after one pass); on texts with slashes a
removed newline can juxtapose two slashes into a line comment that the
second pass strips, as the counterexample shows. -/
theorem claim_C6_amended (s : String) (h : ∀ c ∈ s.toList, c ≠ '/') :
    cleanCode (cleanCode s) = cleanCode s := by
  have hrcc : removeCodeComments s = s := removeCodeComments_no_slash s h
  have f1 : cleanCode s = (jsTrimList (collapseNl s.toList)).asString := by
    unfold cleanCode
    rw [hrcc]
  have fmem : ∀ x ∈ jsTrimList (collapseNl s.toList), x ∈ s.toList := fun x hx =>
    mem_collapseGo false _ x (mem_jsTrimList _ x hx)
  have f2 : ∀ x ∈ jsTrimList (collapseNl s.toList), x ≠ '/' := fun x hx => h x (fmem x hx)
  have f3 : ∀ x ∈ jsTrimList (collapseNl s.toList), x ≠ '\n' := fun x hx =>
    collapseGo_out_no_nl false s.toList x (mem_jsTrimList _ x hx)
  have htl : ((jsTrimList (collapseNl s.toList)).asString).toList =
      jsTrimList (collapseNl s.toList) := rfl
  rw [f1]
  unfold cleanCode
  rw [removeCodeComments_no_slash _ (by rw [htl]; exact f2), htl,
    show collapseNl (jsTrimList (collapseNl s.toList)) = jsTrimList (collapseNl s.toList) from
      collapseGo_no_nl _ f3, jsTrimList_idem]

/-- Witness for C6 (amended) on a concrete slash-free source text. -/
theorem claim_C6_amended_witness :
    (∀ c ∈ ("a = 1; b = 2".toList), c ≠ '/') ∧
      cleanCode (cleanCode "a = 1; b = 2") = cleanCode "a = 1; b = 2" :=
  ⟨by decide, claim_C6_amended "a = 1; b = 2" (by decide)⟩

/-- C9 counterexample: at the key `_constructor-name_` the reviver
returns early (line 184), so the literal string `_NaN_` in that position
is returned unchanged — not decoded to the NaN sentinel as the claim's
universal statement requires. -/
theorem claim_C9_counterexample :
    revive "_constructor-name_" 0 (.hstr "_NaN_") ⟨[], 0, []⟩ =
      .ok (.hstr "_NaN_", ⟨[], 0, []⟩) ∧
    HVal.hstr "_NaN_" ≠ HVal.hnum .nan :=
  ⟨rfl, by decide⟩

/-- C9 (amended): for every parsed string value that is exactly one of
the literals `_undefined_`, `_-Infinity_`, `_Infinity_`, `_NaN_`, at any
key other than `_constructor-name_`, the reviver unconditionally returns
the corresponding sentinel without raising any error — a legitimate
string payload colliding with a tag literal is mis-decoded rather than
preserved or rejected. -/
theorem claim_C9_sentinels_unconditional (key : String) (thisId : Nat) (st : DState)
    (hk : key ≠ "_constructor-name_") :
    (∃ st1, revive key thisId (.hstr "_undefined_") st = .ok (.hundefined, st1)) ∧
    (∃ st1, revive key thisId (.hstr "_-Infinity_") st = .ok (.hnum .ninf, st1)) ∧
    (∃ st1, revive key thisId (.hstr "_Infinity_") st = .ok (.hnum .inf, st1)) ∧
    (∃ st1, revive key thisId (.hstr "_NaN_") st = .ok (.hnum .nan, st1)) := by
  refine
    ⟨⟨if key = "" then { st with heap := applyRefs (.hstr "_undefined_") st.refs st.heap } else st, ?_⟩,
     ⟨if key = "" then { st with heap := applyRefs (.hstr "_-Infinity_") st.refs st.heap } else st, ?_⟩,
     ⟨if key = "" then { st with heap := applyRefs (.hstr "_Infinity_") st.refs st.heap } else st, ?_⟩,
     ⟨if key = "" then { st with heap := applyRefs (.hstr "_NaN_") st.refs st.heap } else st, ?_⟩⟩ <;>
  · unfold revive
    rw [if_neg hk]
    exact rfl

/-- Witness for C9 (amended) at the concrete key `x` and empty state. -/
theorem claim_C9_sentinels_witness :
    (∃ st1, revive "x" 0 (.hstr "_undefined_") ⟨[], 0, []⟩ = .ok (.hundefined, st1)) ∧
    (∃ st1, revive "x" 0 (.hstr "_-Infinity_") ⟨[], 0, []⟩ = .ok (.hnum .ninf, st1)) ∧
    (∃ st1, revive "x" 0 (.hstr "_Infinity_") ⟨[], 0, []⟩ = .ok (.hnum .inf, st1)) ∧
    (∃ st1, revive "x" 0 (.hstr "_NaN_") ⟨[], 0, []⟩ = .ok (.hnum .nan, st1)) :=
  claim_C9_sentinels_unconditional "x" 0 ⟨[], 0, []⟩ (by decide)

/-- The predicate of claim C7, as stated: the trimmed text starts with
one of `[`, `{`, `"` and ends with one of `]`, `}`, `"`. -/
def looksLikeJSONClaim (s : String) : Bool :=
  match (jsTrim s).toList with
  | [] => false
  | c :: cs =>
    (c = '[' || c = '{' || c = '"') &&
    (match (c :: cs).getLast? with
     | some d => d = ']' || d = '}' || d = '"'
     | none => false)

/-- C7 counterexample: `isJSON "\x7d\x7d"` is truthy (the regex's leading
character class `[\[\{\"\}]` also accepts `}`), while the claim's
predicate is false on `"}}"` since the trimmed text starts with `}`. -/
theorem claim_C7_counterexample :
    isJSON "\x7d\x7d" = true ∧ looksLikeJSONClaim "\x7d\x7d" = false := by
  constructor <;> rfl

/-- The amended C7 predicate: the untrimmed text has at least two
characters, its first character is one of `[`, `{`, `"`, `}`, its last
is one of `]`, `}`, `"`, and no character strictly between them is a
line terminator. -/
def looksLikeJSONAmended (s : String) : Bool :=
  decide (2 ≤ s.length) &&
  (match s.toList.head? with
   | some c => c = '[' || c = '{' || c = '"' || c = '}'
   | none => false) &&
  (match s.toList.getLast? with
   | some d => d = ']' || d = '}' || d = '"'
   | none => false) &&
  (s.toList.drop 1).dropLast.all (fun x => !isLineTerm x)

/-- C7 (amended): `isJSON` returns a truthy result exactly on the inputs
described by the amended predicate — no trimming is performed, `}` is
also accepted as a first character, and the middle of the text must not
contain line terminators (the JavaScript `.` does not match them). -/
theorem claim_C7_amended (s : String) : isJSON s = looksLikeJSONAmended s := by
  have hlen : s.length = s.toList.length := rfl
  unfold isJSON looksLikeJSONAmended
  rw [hlen]
  cases hl : s.toList with
  | nil => rfl
  | cons c cs =>
    rcases cs.eq_nil_or_concat with h | ⟨l, b, h⟩
    · subst h; simp
    · subst h
      rw [List.concat_eq_append]
      have h3 : (c :: (l ++ [b])).getLast? = some b := by
        rw [← List.cons_append]; exact List.getLast?_concat _
      simp only [List.getLast?_concat, List.dropLast_concat, h3,
        List.head?_cons, List.drop_succ_cons, List.drop_zero, List.length_cons,
        List.length_append, List.length_singleton]
      have h2 : 2 ≤ l.length + 1 + 1 := by omega
      cases hc : (c = '[' || c = '{' || c = '"' || c = '}') <;>
        cases hb : (b = ']' || b = '}' || b = '"') <;> simp [h2]

end Telejson
